import Mathlib

/-!
Verification of the Hand-Keypoint-Estimation core against its specification.

Shallow embedding of `lib/model/disc.py` and `lib/utils.py`.
Tensors are modelled as (nested) lists of rationals; machine floats become
exact rationals. The fractional power `** 0.5` applied to a non-negative
tensor in `PCK` is modelled by the boolean comparison `sqrtLt s c`
(standing for `Real.sqrt s < c`); the bridge lemma `sqrtLt_iff_sqrt_lt`
certifies that encoding. Neural networks are opaque callables carrying a
mutable `training` flag, modelled by a record holding the flag value and
the forward function; the evaluation loop threads the flag states
explicitly and returns their final values alongside the result.
Visualization and logging are external collaborators and have no effect
on any claimed quantity, so they are omitted from the embedding.
-/

namespace HandKpt

/-! ## lib/model/disc.py -/

/-- `smooth_l1_loss(input, target, beta=1, size_average=True)`:
`n = |input - target|` elementwise; where `n < beta` the element
contributes `0.5 * n ** 2 / beta`, otherwise `n - 0.5 * beta`;
aggregated by `mean` when `size_average` else by `sum`. -/
def smooth_l1_loss (input target : List ℚ) (beta : ℚ := 1)
    (size_average : Bool := true) : ℚ :=
  let n := List.zipWith (fun a b => |a - b|) input target
  let loss := n.map (fun x => if x < beta then 0.5 * x ^ 2 / beta else x - 0.5 * beta)
  if size_average then loss.sum / (loss.length : ℚ) else loss.sum

/-- A tensor batch: the list of per-example values together with the
autograd `requires_grad` tracking flag. -/
structure TBatch (α : Type) where
  data : List α
  requires_grad : Bool
  deriving Repr, DecidableEq

/-- `torch.cat([a, b], dim=0)`: concatenation along the batch axis; the
result participates in gradient tracking when either input does. -/
def tcat {α : Type} (a b : TBatch α) : TBatch α :=
  ⟨a.data ++ b.data, a.requires_grad || b.requires_grad⟩

/-- `Tensor.detach()`: same values, removed from gradient tracking. -/
def tdetach {α : Type} (a : TBatch α) : TBatch α :=
  ⟨a.data, false⟩

/-- `discrepancy(source_data, target_data, base_net, h1, h2, criterion)`
from `lib/model/disc.py`: runs the shared backbone on both domains,
detaches the concatenated features, and returns them together with the
absolute difference of the per-domain head disagreements. -/
def discrepancy {ι φ : Type} (source_data target_data : ι)
    (base_net : ι → TBatch φ) (h1 h2 : TBatch φ → List ℚ)
    (criterion : List ℚ → List ℚ → ℚ := fun a b => smooth_l1_loss a b) :
    TBatch φ × ℚ :=
  let source_feat := base_net source_data
  let target_feat := base_net target_data
  let union_feat := tdetach (tcat source_feat target_feat)
  let src_h1 := h1 source_feat
  let src_h2 := h2 source_feat
  let tgt_h1 := h1 target_feat
  let tgt_h2 := h2 target_feat
  let src_disc := criterion src_h1 src_h2
  let tgt_disc := criterion tgt_h1 tgt_h2
  (union_feat, |src_disc - tgt_disc|)

/-! ## lib/utils.py : PCK -/

/-- A keypoint set of shape `[N, C, 2]`: per image, per channel, an
`(x, y)` coordinate pair. -/
abbrev KSet := List (List (ℚ × ℚ))

/-- Boolean encoding of `s ** 0.5 < c` for a non-negative `s` (the
summed squared distance): true iff `0 < c` and `s < c ^ 2`. -/
def sqrtLt (s c : ℚ) : Bool :=
  decide (0 < c ∧ s < c ^ 2)

/-- `PCK(pred, gt, img_side_len, alpha)`: per-keypoint squared Euclidean
distance summed over the coordinate axis, compared (after the `** 0.5`
root, encoded by `sqrtLt`) against `alpha * img_side_len`; returns the
fraction of correct keypoints and the absolute correct count. -/
def PCK (pred gt : KSet) (img_side_len : ℚ) (alpha : ℚ := 0.2) : ℚ × ℚ :=
  let norm_dis := alpha * img_side_len
  let dis := List.zipWith
    (fun pr gr => List.zipWith
      (fun p g => (p.1 - g.1) ^ 2 + (p.2 - g.2) ^ 2) pr gr) pred gt
  let nkpt : ℕ := (dis.map (fun row => row.countP (fun d => sqrtLt d norm_dis))).sum
  ((nkpt : ℚ) / (((dis.map List.length).sum : ℕ) : ℚ), (nkpt : ℚ))

/-- `PCK_curve_pnts(sp, pred, gt, img_side_len)`: the absolute correct
count of `PCK` at each tolerance of the sweep `sp`. -/
def PCK_curve_pnts (sp : List ℚ) (pred gt : KSet) (img_side_len : ℚ) : List ℚ :=
  sp.map (fun a => (PCK pred gt img_side_len a).2)

/-- `np.linspace(a, b, num)`: `num` equally spaced samples from `a` to
`b` inclusive. -/
def linspace (a b : ℚ) (num : ℕ) : List ℚ :=
  (List.range num).map (fun i => a + (b - a) / ((num - 1 : ℕ) : ℚ) * (i : ℚ))

/-- The threshold sweep `np.linspace(0, 0.2, 21)` built by `evaluate`. -/
def thresholds : List ℚ := linspace 0 0.2 21

/-! ## lib/utils.py : get_kpts -/

/-- A heatmap batch of shape `(batch, channels, height, width)`. -/
abbrev Heatmaps := List (List (List (List ℚ)))

/-- Index of the first occurrence of the maximum of a list
(`np.argmax` on the flattened array; empty list gives `0`). -/
def argmaxIdx : List ℚ → ℕ
  | [] => 0
  | [_] => 0
  | a :: b :: rest =>
    let j := argmaxIdx (b :: rest)
    if a < (b :: rest).getD j 0 then j + 1 else 0

/-- `m.shape[1]`: the row length of a (rectangular) matrix. -/
def ncols (m : List (List ℚ)) : ℕ := (m.headD []).length

/-- One channel of `get_kpts`: `h, w = np.unravel_index(m.argmax(), m.shape)`;
`x = int(w * img_w / m.shape[1])`; `y = int(h * img_h / m.shape[0])`. -/
def kptOfMap (m : List (List ℚ)) (img_h img_w : ℕ) : ℕ × ℕ :=
  let idx := argmaxIdx m.flatten
  let h := idx / ncols m
  let w := idx % ncols m
  (w * img_w / ncols m, h * img_h / m.length)

/-- `get_kpts(maps, img_h, img_w)` from `lib/utils.py`: per image, per
channel, the rescaled arg-max coordinate `[x, y]`. -/
def get_kpts (maps : Heatmaps) (img_h img_w : ℕ) : List (List (ℕ × ℕ)) :=
  maps.map (fun heat_map => heat_map.map (fun m => kptOfMap m img_h img_w))

/-! ## lib/utils.py : evaluate -/

/-- A participating network: the current value of the mutable
`training`-mode flag, and the forward computation. -/
structure MNet (α β : Type) where
  training : Bool
  run : α → β

/-- Elementwise `(h1 + h2) / 2` on two heatmap batches (the two-head
ensemble branch of `evaluate`). -/
def avgHeats (a b : Heatmaps) : Heatmaps :=
  List.zipWith (fun p q => List.zipWith (fun r s =>
    List.zipWith (fun u v => List.zipWith (fun x y => (x + y) / 2) u v) r s) p q) a b

/-- How `evaluate` terminates abnormally: one of the two entry
assertions, or an error raised from a step of the batch loop. -/
inductive EvalErr (ε : Type) where
  | assertBaseNetMissing : EvalErr ε
  | assertPredNetsMissing : EvalErr ε
  | batchError : ε → EvalErr ε
  deriving Repr, DecidableEq

/-- The per-batch heatmap computation of `evaluate`: backbone features,
then the single supplied head, or the average of both heads. -/
def runHeats {ι φ : Type} (bn : MNet ι φ)
    (pred_net_1 pred_net_2 : Option (MNet φ Heatmaps)) (inputs : ι) : Heatmaps :=
  let feats := bn.run inputs
  match pred_net_1, pred_net_2 with
  | some n1, none => n1.run feats
  | none, some n2 => n2.run feats
  | some n1, some n2 => avgHeats (n1.run feats) (n2.run feats)
  | none, none => []

/-- `kpts.numel()` for a keypoint tensor of shape `[N, C, 2]`. -/
def kptsNumel (kpts : List (List (ℕ × ℕ))) : ℕ :=
  (kpts.map (fun row => 2 * row.length)).sum

/-- Coordinate pairs of `get_kpts`, cast to rationals for `PCK`. -/
def kptsToQ (kpts : List (List (ℕ × ℕ))) : KSet :=
  kpts.map (fun row => row.map (fun p => ((p.1 : ℚ), (p.2 : ℚ))))

/-- The batch loop of `evaluate`: each loader element either yields a
batch `(inputs, gt_kpts)` or raises; a raised error propagates at once,
skipping the rest of the loop and everything after it. On success
returns the accumulators `(tot_nkpts, tot_pnt)`. -/
def evalLoop {ι : Type} {ε : Type} (heats : ι → Heatmaps) (img_size : ℕ) :
    List (Except ε (ι × KSet)) → List ℚ → ℚ → Except ε (List ℚ × ℚ)
  | [], tot_nkpts, tot_pnt => .ok (tot_nkpts, tot_pnt)
  | .error e :: _, _, _ => .error e
  | .ok (inputs, gt_kpts) :: rest, tot_nkpts, tot_pnt =>
    let kpts := get_kpts (heats inputs) img_size img_size
    let nkpts := PCK_curve_pnts thresholds (kptsToQ kpts) gt_kpts (img_size : ℚ)
    evalLoop heats img_size rest (List.zipWith (· + ·) tot_nkpts nkpts)
      (tot_pnt + (kptsNumel kpts : ℚ) / 2)

/-- `evaluate(base_net, loader, img_size, pred_net_1, pred_net_2, ...)`
from `lib/utils.py`. Returns the result (the two headline PCK scores,
or the error that terminated the call) paired with the final values of
the `training` flags of `(base_net, pred_net_1, pred_net_2)` (`none`
for an absent network). The flags are set to `False` by `net.eval()`
after the assertions and restored by `net.train(state)` only on the
path that completes the loop normally; the source has no
`try`/`finally` around the loop. -/
def evaluate {ι φ : Type} {ε : Type} (base_net : Option (MNet ι φ))
    (loader : List (Except ε (ι × KSet))) (img_size : ℕ)
    (pred_net_1 pred_net_2 : Option (MNet φ Heatmaps)) :
    Except (EvalErr ε) (ℚ × ℚ) × (Option Bool × Option Bool × Option Bool) :=
  match base_net with
  | none =>
    (.error .assertBaseNetMissing,
      (none, pred_net_1.map (·.training), pred_net_2.map (·.training)))
  | some bn =>
    match pred_net_1, pred_net_2 with
    | none, none =>
      (.error .assertPredNetsMissing, (some bn.training, none, none))
    | p1, p2 =>
      match evalLoop (runHeats bn p1 p2) img_size loader
          (List.replicate thresholds.length 0) 0 with
      | .error e =>
        (.error (.batchError e),
          (some false, p1.map (fun _ => false), p2.map (fun _ => false)))
      | .ok (tot_nkpts, tot_pnt) =>
        let norm := tot_nkpts.map (fun c => c / tot_pnt)
        (.ok (norm.getD 5 0, norm.getLastD 0),
          (some bn.training, p1.map (·.training), p2.map (·.training)))

/-- The per-threshold correct counts contributed by one batch. -/
def batchCounts {ι : Type} (heats : ι → Heatmaps) (img_size : ℕ)
    (b : ι × KSet) : List ℚ :=
  PCK_curve_pnts thresholds
    (kptsToQ (get_kpts (heats b.1) img_size img_size)) b.2 (img_size : ℚ)

/-- The keypoint count contributed by one batch (`kpts.numel() / 2`). -/
def batchPnt {ι : Type} (heats : ι → Heatmaps) (img_size : ℕ)
    (b : ι × KSet) : ℚ :=
  (kptsNumel (get_kpts (heats b.1) img_size img_size) : ℚ) / 2

/-! ## Supporting lemmas: smooth_l1_loss -/

/-- Mapping a function over the elementwise absolute differences of two
lists equals mapping the composite over the zipped pairs. -/
lemma map_zipWith_absdiff (g : ℚ → ℚ) (input target : List ℚ) :
    (List.zipWith (fun a b => |a - b|) input target).map g =
      (input.zip target).map (fun p => g |p.1 - p.2|) := by
  induction input generalizing target with
  | nil => simp
  | cons a ta ih =>
    cases target with
    | nil => simp
    | cons b tb => simp [ih]

/-- Every elementwise absolute difference is non-negative. -/
lemma zipWith_absdiff_nonneg (input target : List ℚ) :
    ∀ x ∈ List.zipWith (fun a b => |a - b|) input target, 0 ≤ x := by
  induction input generalizing target with
  | nil => simp
  | cons a ta ih =>
    cases target with
    | nil => simp
    | cons b tb =>
      intro x hx
      rcases List.mem_cons.mp hx with h | h
      · exact h ▸ abs_nonneg _
      · exact ih tb x h

/-- Each per-element contribution of `smooth_l1_loss` is non-negative
when `beta` is positive. -/
lemma huber_contrib_nonneg (beta x : ℚ) (hβ : 0 < beta) :
    0 ≤ if x < beta then 0.5 * x ^ 2 / beta else x - 0.5 * beta := by
  split
  · positivity
  · rename_i h
    push_neg at h
    linarith

/-- The elementwise absolute differences of a list with itself are all
zero. -/
lemma zipWith_absdiff_self (a : List ℚ) :
    List.zipWith (fun p q => |p - q|) a a = List.replicate a.length 0 := by
  induction a with
  | nil => rfl
  | cons x t ih => simp [List.replicate, ih]

/-- `smooth_l1_loss` with its default parameters vanishes on equal
arguments. -/
lemma smooth_l1_loss_self (a : List ℚ) : smooth_l1_loss a a = 0 := by
  unfold smooth_l1_loss
  rw [zipWith_absdiff_self]
  rcases Nat.eq_zero_or_pos a.length with h | h
  · simp [h]
  · have : ((0 : ℚ) < 1) := one_pos
    simp [List.map_replicate, List.sum_replicate, this]

/-! ## Supporting lemmas: argmax and flatten -/

/-- The arg-max index of a non-empty list is in range. -/
lemma argmaxIdx_lt_length (l : List ℚ) (h : l ≠ []) :
    argmaxIdx l < l.length := by
  match l with
  | [a] => simp [argmaxIdx]
  | a :: b :: rest =>
    have ih := argmaxIdx_lt_length (b :: rest) (by simp)
    simp only [argmaxIdx]
    split
    · simpa using Nat.succ_lt_succ ih
    · simp

/-- The element at the arg-max index dominates every element. -/
lemma argmaxIdx_le (l : List ℚ) (i : ℕ) (hi : i < l.length) :
    l.getD i 0 ≤ l.getD (argmaxIdx l) 0 := by
  match l with
  | [] => simp at hi
  | [a] =>
    have hi1 : i < 1 := by simpa using hi
    have : i = 0 := by omega
    subst this
    simp [argmaxIdx]
  | a :: b :: rest =>
    have ih := fun j hj => argmaxIdx_le (b :: rest) j hj
    simp only [argmaxIdx]
    split
    · rename_i hlt
      cases i with
      | zero => simpa using le_of_lt hlt
      | succ j =>
        rw [List.getD_cons_succ, List.getD_cons_succ]
        exact ih j (by simpa using hi)
    · rename_i hge
      push_neg at hge
      cases i with
      | zero => simp
      | succ j =>
        rw [List.getD_cons_succ, List.getD_cons_zero]
        exact (ih j (by simpa using hi)).trans hge

/-- The arg-max index is the first occurrence of the maximum: every
strictly earlier element is strictly smaller. -/
lemma argmaxIdx_first (l : List ℚ) (i : ℕ) (hi : i < argmaxIdx l) :
    l.getD i 0 < l.getD (argmaxIdx l) 0 := by
  match l with
  | [] => simp [argmaxIdx] at hi
  | [a] => simp [argmaxIdx] at hi
  | a :: b :: rest =>
    have ih := fun j hj => argmaxIdx_first (b :: rest) j hj
    by_cases hc : a < (b :: rest).getD (argmaxIdx (b :: rest)) 0
    · simp only [argmaxIdx, if_pos hc] at hi ⊢
      cases i with
      | zero => simpa using hc
      | succ j =>
        rw [List.getD_cons_succ, List.getD_cons_succ]
        exact ih j (by omega)
    · simp only [argmaxIdx, if_neg hc] at hi
      omega

/-- A rectangular list of rows of length `W` flattens to length
`rows * W`. -/
lemma flatten_length_rect (m : List (List ℚ)) (W : ℕ)
    (hW : ∀ row ∈ m, row.length = W) :
    m.flatten.length = m.length * W := by
  induction m with
  | nil => simp
  | cons r t ih =>
    have hr : r.length = W := hW r (by simp)
    have ht := ih (fun row hrow => hW row (List.mem_cons_of_mem _ hrow))
    simp only [List.flatten_cons, List.length_append, List.length_cons, hr, ht]
    ring

/-- Row-major indexing into the flattening of a rectangular matrix. -/
lemma flatten_getD_rect (m : List (List ℚ)) (W : ℕ)
    (hW : ∀ row ∈ m, row.length = W) (h w : ℕ) (hh : h < m.length)
    (hw : w < W) :
    m.flatten.getD (h * W + w) 0 = (m.getD h []).getD w 0 := by
  induction m generalizing h with
  | nil => simp at hh
  | cons r t ih =>
    have hr : r.length = W := hW r (by simp)
    cases h with
    | zero =>
      rw [List.flatten_cons, List.getD_cons_zero]
      have : 0 * W + w < r.length := by omega
      simpa using List.getD_append r t.flatten 0 (0 * W + w) this
    | succ g =>
      have hidx : (g + 1) * W + w = r.length + (g * W + w) := by
        rw [hr]; ring
      rw [List.flatten_cons, hidx, List.getD_append_right r t.flatten 0 _
        (by omega), List.getD_cons_succ]
      have := ih (fun row hrow => hW row (List.mem_cons_of_mem _ hrow)) g
        (by simpa using Nat.lt_of_succ_lt_succ hh)
      simpa using this

/-- Row-major flattened index bound for a rectangular matrix. -/
lemma rowmajor_lt (h2 w2 H W : ℕ) (hh : h2 < H) (hw : w2 < W) :
    h2 * W + w2 < H * W :=
  calc h2 * W + w2 < h2 * W + W := by omega
    _ = (h2 + 1) * W := by ring
    _ ≤ H * W := Nat.mul_le_mul_right W hh

/-- Full characterization of one channel of `get_kpts`: the returned
coordinate is the rescaled position of the first row-major occurrence
of the maximum response. -/
lemma kptOfMap_spec (m : List (List ℚ)) (img_h img_w : ℕ) (hm : m ≠ [])
    (hW : 0 < ncols m) (hrect : ∀ row ∈ m, row.length = ncols m) :
    ∃ h w, h < m.length ∧ w < ncols m ∧
      (∀ h2 w2, h2 < m.length → w2 < ncols m →
        (m.getD h2 []).getD w2 0 ≤ (m.getD h []).getD w 0) ∧
      (∀ h2 w2, h2 < m.length → w2 < ncols m →
        h2 * ncols m + w2 < h * ncols m + w →
        (m.getD h2 []).getD w2 0 < (m.getD h []).getD w 0) ∧
      kptOfMap m img_h img_w = (w * img_w / ncols m, h * img_h / m.length) := by
  have hflen : m.flatten.length = m.length * ncols m :=
    flatten_length_rect m (ncols m) hrect
  have hne : m.flatten ≠ [] := by
    intro hcon
    have h0 : m.length * ncols m = 0 := by
      rw [← hflen, hcon]; rfl
    rcases Nat.mul_eq_zero.mp h0 with h1 | h1
    · exact hm (List.length_eq_zero.mp h1)
    · omega
  have hlt : argmaxIdx m.flatten < m.length * ncols m := by
    rw [← hflen]; exact argmaxIdx_lt_length _ hne
  have hdm : argmaxIdx m.flatten / ncols m * ncols m +
      argmaxIdx m.flatten % ncols m = argmaxIdx m.flatten := by
    rw [mul_comm]; exact Nat.div_add_mod _ _
  have hdiv : argmaxIdx m.flatten / ncols m < m.length :=
    (Nat.div_lt_iff_lt_mul hW).mpr hlt
  have hmod : argmaxIdx m.flatten % ncols m < ncols m := Nat.mod_lt _ hW
  have hmax : m.flatten.getD (argmaxIdx m.flatten) 0 =
      (m.getD (argmaxIdx m.flatten / ncols m) []).getD
        (argmaxIdx m.flatten % ncols m) 0 := by
    conv_lhs => rw [← hdm]
    exact flatten_getD_rect m (ncols m) hrect _ _ hdiv hmod
  refine ⟨argmaxIdx m.flatten / ncols m, argmaxIdx m.flatten % ncols m,
    hdiv, hmod, ?_, ?_, rfl⟩
  · intro h2 w2 hh2 hw2
    rw [← hmax, ← flatten_getD_rect m (ncols m) hrect h2 w2 hh2 hw2]
    exact argmaxIdx_le _ _ (by rw [hflen]; exact rowmajor_lt h2 w2 _ _ hh2 hw2)
  · intro h2 w2 hh2 hw2 hlt2
    rw [← hmax, ← flatten_getD_rect m (ncols m) hrect h2 w2 hh2 hw2]
    exact argmaxIdx_first _ _ (by omega)

/-! ## Claim theorems: disc.py -/

/-- Claim C4: for every pair of same-shaped tensors and every
`beta > 0`, `smooth_l1_loss` computes per element `n = |input - target|`,
contributes `0.5 * n ^ 2 / beta` where `n < beta` and `n - 0.5 * beta`
otherwise, and aggregates by the mean of all element contributions when
`size_average` is true and by their sum otherwise. -/
theorem smooth_l1_loss_spec (input target : List ℚ) (beta : ℚ)
    (size_average : Bool) (hlen : input.length = target.length)
    (hβ : 0 < beta) :
    smooth_l1_loss input target beta size_average =
      if size_average then
        ((input.zip target).map (fun p =>
          if |p.1 - p.2| < beta then 0.5 * |p.1 - p.2| ^ 2 / beta
          else |p.1 - p.2| - 0.5 * beta)).sum / (input.length : ℚ)
      else
        ((input.zip target).map (fun p =>
          if |p.1 - p.2| < beta then 0.5 * |p.1 - p.2| ^ 2 / beta
          else |p.1 - p.2| - 0.5 * beta)).sum := by
  unfold smooth_l1_loss
  simp only [map_zipWith_absdiff
    (fun x => if x < beta then 0.5 * x ^ 2 / beta else x - 0.5 * beta)]
  cases size_average <;> simp [hlen, sq_abs]

/-- Witness for C4 at `input = [0, 3]`, `target = [1, 0]`, `beta = 1`,
mean aggregation. -/
theorem smooth_l1_loss_spec_witness :
    smooth_l1_loss [0, 3] [1, 0] 1 true = 3 / 2 :=
  (smooth_l1_loss_spec [0, 3] [1, 0] 1 true (by decide) (by norm_num)).trans
    (by norm_num)

/-- Claim C10: for every pair of same-shaped tensors and every
`beta > 0`, the value returned by `smooth_l1_loss` is non-negative,
under both the mean and the sum aggregation. -/
theorem smooth_l1_loss_nonneg (input target : List ℚ) (beta : ℚ)
    (size_average : Bool) (hlen : input.length = target.length)
    (hβ : 0 < beta) :
    0 ≤ smooth_l1_loss input target beta size_average := by
  unfold smooth_l1_loss
  have hsum : 0 ≤ ((List.zipWith (fun a b => |a - b|) input target).map
      (fun x => if x < beta then 0.5 * x ^ 2 / beta else x - 0.5 * beta)).sum := by
    refine List.sum_nonneg ?_
    intro x hx
    rcases List.mem_map.mp hx with ⟨y, _, rfl⟩
    exact huber_contrib_nonneg beta y hβ
  cases size_average
  · simpa using hsum
  · simp only [if_pos]
    exact div_nonneg hsum (by positivity)

/-- Witness for C10 at `input = [0, 3]`, `target = [1, 0]`, `beta = 1`,
mean aggregation. -/
theorem smooth_l1_loss_nonneg_witness :
    0 ≤ smooth_l1_loss [0, 3] [1, 0] 1 true :=
  smooth_l1_loss_nonneg [0, 3] [1, 0] 1 true (by decide) (by norm_num)

/-- Claim C5: for all source and target batches and all callables,
`discrepancy` returns the pair of (a) the concatenation of the source
and target feature batches along the batch axis, detached from gradient
tracking, and (b) the absolute value of the difference between the
per-domain head disagreements under `criterion`. -/
theorem discrepancy_spec {ι φ : Type} (source_data target_data : ι)
    (base_net : ι → TBatch φ) (h1 h2 : TBatch φ → List ℚ)
    (criterion : List ℚ → List ℚ → ℚ) :
    discrepancy source_data target_data base_net h1 h2 criterion =
      (⟨(base_net source_data).data ++ (base_net target_data).data, false⟩,
       |criterion (h1 (base_net source_data)) (h2 (base_net source_data)) -
         criterion (h1 (base_net target_data)) (h2 (base_net target_data))|) :=
  rfl

/-- Claim C8: for every source and target batch and backbone, when the
two heads are the same function, the discrepancy scalar (under the
default `smooth_l1_loss` criterion) is exactly `0`. -/
theorem discrepancy_zero_of_equal_heads {ι φ : Type}
    (source_data target_data : ι) (base_net : ι → TBatch φ)
    (h1 h2 : TBatch φ → List ℚ) (heq : h1 = h2) :
    (discrepancy source_data target_data base_net h1 h2).2 = 0 := by
  subst heq
  show |smooth_l1_loss (h1 (base_net source_data)) (h1 (base_net source_data)) -
    smooth_l1_loss (h1 (base_net target_data)) (h1 (base_net target_data))| = 0
  rw [smooth_l1_loss_self, smooth_l1_loss_self, sub_zero, abs_zero]

/-- Witness for C8 at concrete identical heads. -/
theorem discrepancy_zero_of_equal_heads_witness :
    (discrepancy 0 1 (fun n : ℕ => ⟨[(n : ℚ), 2], true⟩)
      (fun t => t.data) (fun t => t.data)).2 = 0 :=
  discrepancy_zero_of_equal_heads 0 1 _ _ _ rfl

/-! ## Supporting lemmas: PCK and the threshold sweep -/

/-- Bridge certifying the encoding of `** 0.5`: the boolean
`sqrtLt s c` holds iff `Real.sqrt s < c`. -/
lemma sqrtLt_iff_sqrt_lt (s c : ℚ) :
    sqrtLt s c = true ↔ Real.sqrt (s : ℝ) < (c : ℝ) := by
  unfold sqrtLt
  rw [decide_eq_true_eq]
  constructor
  · rintro ⟨hc, hlt⟩
    have hc2 : (0 : ℝ) < (c : ℝ) := by exact_mod_cast hc
    rw [Real.sqrt_lt' hc2]
    exact_mod_cast hlt
  · intro hlt
    have hc2 : (0 : ℝ) < (c : ℝ) := lt_of_le_of_lt (Real.sqrt_nonneg _) hlt
    refine ⟨by exact_mod_cast hc2, ?_⟩
    have := (Real.sqrt_lt' hc2).mp hlt
    exact_mod_cast this

/-- `sqrtLt` is monotone in the bound. -/
lemma sqrtLt_mono (d c1 c2 : ℚ) (hc : c1 ≤ c2) (h : sqrtLt d c1 = true) :
    sqrtLt d c2 = true := by
  unfold sqrtLt at h ⊢
  rw [decide_eq_true_eq] at h ⊢
  obtain ⟨h1, h2⟩ := h
  have hc2 : 0 < c2 := lt_of_lt_of_le h1 hc
  exact ⟨hc2, lt_of_lt_of_le h2 (pow_le_pow_left₀ (le_of_lt h1) hc 2)⟩

/-- The threshold sweep as a literal list of rationals. -/
lemma thresholds_eq : thresholds =
    [0, 1/100, 1/50, 3/100, 1/25, 1/20, 3/50, 7/100, 2/25, 9/100, 1/10,
     11/100, 3/25, 13/100, 7/50, 3/20, 4/25, 17/100, 9/50, 19/100, 1/5] := by
  unfold thresholds linspace
  norm_num [List.range_succ]

/-- Every value of the threshold sweep is non-negative. -/
lemma thresholds_nonneg (t : ℚ) (ht : t ∈ thresholds) : 0 ≤ t := by
  rw [thresholds_eq] at ht
  fin_cases ht <;> norm_num

/-- `thresholds` has exactly 21 entries. -/
lemma thresholds_length : thresholds.length = 21 := by
  rw [thresholds_eq]
  rfl

/-! ## Supporting lemmas: the evaluation loop -/

/-- Each batch contributes one count per threshold. -/
lemma batchCounts_length {ι : Type} (heats : ι → Heatmaps) (img_size : ℕ)
    (b : ι × KSet) :
    (batchCounts heats img_size b).length = thresholds.length := by
  simp [batchCounts, PCK_curve_pnts]

/-- On a loader with no raising element, the batch loop returns the
threshold accumulators folded over all batches and the accumulated
total keypoint count. -/
lemma evalLoop_ok {ι ε : Type} (heats : ι → Heatmaps) (img_size : ℕ)
    (bs : List (ι × KSet)) (acc : List ℚ) (t : ℚ) :
    evalLoop (ε := ε) heats img_size (bs.map Except.ok) acc t =
      .ok (bs.foldl
        (fun a b => List.zipWith (· + ·) a (batchCounts heats img_size b)) acc,
        t + (bs.map (batchPnt heats img_size)).sum) := by
  induction bs generalizing acc t with
  | nil => simp [evalLoop]
  | cons b rest ih =>
    cases b with
    | mk inputs gt => simp [evalLoop, batchCounts, batchPnt, ih, add_assoc]

/-- A raising loader element terminates the batch loop with that error,
whatever follows it. -/
lemma evalLoop_error {ι ε : Type} (heats : ι → Heatmaps) (img_size : ℕ)
    (pre : List (ι × KSet)) (e : ε) (post : List (Except ε (ι × KSet)))
    (acc : List ℚ) (t : ℚ) :
    evalLoop heats img_size (pre.map Except.ok ++ .error e :: post) acc t =
      .error e := by
  induction pre generalizing acc t with
  | nil => simp [evalLoop]
  | cons b rest ih =>
    cases b with
    | mk inputs gt => simp [evalLoop, ih]

/-- `getD` distributes over pointwise addition of equally long lists. -/
lemma zipWith_add_getD (a b : List ℚ) (j : ℕ) (hj : j < a.length)
    (hlen : b.length = a.length) :
    (List.zipWith (· + ·) a b).getD j 0 = a.getD j 0 + b.getD j 0 := by
  induction a generalizing b j with
  | nil => simp at hj
  | cons x ta ih =>
    cases b with
    | nil => simp at hlen
    | cons y tb =>
      cases j with
      | zero => simp
      | succ j =>
        simp only [List.zipWith_cons_cons, List.getD_cons_succ]
        exact ih tb j (by simpa using hj) (by simpa using hlen)

/-- Pointwise addition of equally long lists preserves length. -/
lemma zipWith_add_length (a b : List ℚ) (hlen : b.length = a.length) :
    (List.zipWith (· + ·) a b).length = a.length := by
  simp [List.length_zipWith, hlen]

/-- Folding pointwise additions preserves the accumulator length. -/
lemma foldl_zipWith_length {β : Type} (bs : List β) (counts : β → List ℚ)
    (acc : List ℚ) (hlen : ∀ b, (counts b).length = acc.length) :
    (bs.foldl (fun a b => List.zipWith (· + ·) a (counts b)) acc).length =
      acc.length := by
  induction bs generalizing acc with
  | nil => rfl
  | cons b rest ih =>
    have h1 := zipWith_add_length acc (counts b) (hlen b)
    rw [List.foldl_cons, ih _ (fun c => (hlen c).trans h1.symm), h1]

/-- Entry `j` of the folded accumulators is the initial entry plus the
sum of entry `j` over all batches. -/
lemma foldl_zipWith_getD {β : Type} (bs : List β) (counts : β → List ℚ)
    (acc : List ℚ) (j : ℕ) (hj : j < acc.length)
    (hlen : ∀ b, (counts b).length = acc.length) :
    (bs.foldl (fun a b => List.zipWith (· + ·) a (counts b)) acc).getD j 0 =
      acc.getD j 0 + (bs.map (fun b => (counts b).getD j 0)).sum := by
  induction bs generalizing acc with
  | nil => simp
  | cons b rest ih =>
    have h1 := zipWith_add_length acc (counts b) (hlen b)
    rw [List.foldl_cons, ih _ (h1.symm ▸ hj) (fun c => (hlen c).trans h1.symm),
      zipWith_add_getD acc (counts b) j hj (hlen b)]
    simp [add_assoc]

/-- `getD` through a division map, inside the list bounds. -/
lemma getD_map_div (l : List ℚ) (t : ℚ) (j : ℕ) (hj : j < l.length) :
    (l.map (fun c => c / t)).getD j 0 = l.getD j 0 / t := by
  rw [List.getD_eq_getElem?_getD, List.getD_eq_getElem?_getD,
    List.getElem?_map, List.getElem?_eq_getElem hj]
  simp

/-- `getLastD` is `getD` at the last position. -/
lemma getLastD_eq_getD (l : List ℚ) (d : ℚ) :
    l.getLastD d = l.getD (l.length - 1) d := by
  rw [List.getLastD_eq_getLast?, List.getLast?_eq_getElem?,
    List.getD_eq_getElem?_getD]

/-- `getD` into a zero-initialized accumulator list is zero. -/
lemma replicate_getD_zero (n j : ℕ) :
    (List.replicate n (0 : ℚ)).getD j 0 = 0 := by
  induction n generalizing j with
  | zero => simp
  | succ n ih =>
    cases j with
    | zero => simp [List.replicate]
    | succ j => simp [List.replicate, ih]

/-- Entry `j` of the normalized accumulators equals the summed
per-batch count at `j` divided by the total keypoint count. -/
lemma evaluate_norm_getD {ι : Type} (heats : ι → Heatmaps) (img_size : ℕ)
    (bs : List (ι × KSet)) (j : ℕ) (hj : j < 21) :
    (List.map (fun c => c / (List.map (batchPnt heats img_size) bs).sum)
        (List.foldl
          (fun a b => List.zipWith (· + ·) a (batchCounts heats img_size b))
          (List.replicate thresholds.length 0) bs)).getD j 0 =
    (List.map (fun b => (batchCounts heats img_size b).getD j 0) bs).sum /
        (List.map (batchPnt heats img_size) bs).sum := by
  have hlen : ∀ b, (batchCounts heats img_size b).length =
      (List.replicate thresholds.length (0 : ℚ)).length := by
    intro b
    simp [batchCounts_length]
  have hL : (List.foldl
      (fun a b => List.zipWith (· + ·) a (batchCounts heats img_size b))
      (List.replicate thresholds.length 0) bs).length = 21 := by
    rw [foldl_zipWith_length bs _ _ hlen]
    simp [thresholds_length]
  rw [getD_map_div _ _ j (by omega)]
  rw [foldl_zipWith_getD bs _ _ j (by simp [thresholds_length]; omega) hlen]
  rw [replicate_getD_zero, zero_add]

/-- The normalized accumulator list has last index 20. -/
lemma evaluate_map_len {ι : Type} (heats : ι → Heatmaps) (img_size : ℕ)
    (bs : List (ι × KSet)) :
    (List.map (fun c => c / (List.map (batchPnt heats img_size) bs).sum)
        (List.foldl
          (fun a b => List.zipWith (· + ·) a (batchCounts heats img_size b))
          (List.replicate thresholds.length 0) bs)).length - 1 = 20 := by
  have hlen : ∀ b, (batchCounts heats img_size b).length =
      (List.replicate thresholds.length (0 : ℚ)).length := by
    intro b
    simp [batchCounts_length]
  rw [List.length_map, foldl_zipWith_length bs _ _ hlen]
  simp [thresholds_length]

/-! ## Claim theorems: get_kpts -/

set_option maxRecDepth 10000 in
/-- Claim C3: for every heatmap batch (non-empty rectangular channels),
`get_kpts` returns per image, per channel, the coordinate of that
channel's maximum response — first occurrence in row-major order on
ties — rescaled by `x = w * img_w / W` and `y = h * img_h / H` with
integer truncation; in particular a 1×1×4×4 heatmap with its maximum at
grid row 1, column 2 and target size 8×8 yields pixel coordinate
`(4, 2)`. -/
theorem get_kpts_spec (maps : Heatmaps) (img_h img_w : ℕ)
    (hmaps : ∀ hm ∈ maps, ∀ m ∈ hm,
      m ≠ [] ∧ 0 < ncols m ∧ ∀ row ∈ m, row.length = ncols m) :
    (get_kpts maps img_h img_w =
      maps.map (fun heat_map => heat_map.map (fun m => kptOfMap m img_h img_w))) ∧
    (∀ hm ∈ maps, ∀ m ∈ hm, ∃ h w, h < m.length ∧ w < ncols m ∧
      (∀ h2 w2, h2 < m.length → w2 < ncols m →
        (m.getD h2 []).getD w2 0 ≤ (m.getD h []).getD w 0) ∧
      (∀ h2 w2, h2 < m.length → w2 < ncols m →
        h2 * ncols m + w2 < h * ncols m + w →
        (m.getD h2 []).getD w2 0 < (m.getD h []).getD w 0) ∧
      kptOfMap m img_h img_w = (w * img_w / ncols m, h * img_h / m.length)) ∧
    get_kpts [[[[0, 0, 0, 0], [0, 0, 9, 0], [0, 0, 0, 0], [0, 0, 0, 0]]]] 8 8 =
      [[(4, 2)]] := by
  refine ⟨rfl, ?_, by decide⟩
  intro hm hhm m hmem
  obtain ⟨h1, h2, h3⟩ := hmaps hm hhm m hmem
  exact kptOfMap_spec m img_h img_w h1 h2 h3

set_option maxRecDepth 10000 in
/-- Witness for C3 at the 1×1×4×4 example heatmap. -/
theorem get_kpts_spec_witness :
    get_kpts [[[[0, 0, 0, 0], [0, 0, 9, 0], [0, 0, 0, 0], [0, 0, 0, 0]]]] 8 8 =
      [[(4, 2)]] :=
  (get_kpts_spec [[[[0, 0, 0, 0], [0, 0, 9, 0], [0, 0, 0, 0], [0, 0, 0, 0]]]]
    8 8 (by decide)).2.2

/-- Claim C9 counterexample: for the non-negative target size `0` the
claimed strict bound `x < target_width` fails: a 1×1×1×1 heatmap with
target size `0 × 0` yields coordinate `(0, 0)`, and `0 < 0` is false. -/
theorem get_kpts_bounds_counterexample :
    get_kpts [[[[1]]]] 0 0 = [[(0, 0)]] ∧ ¬ ((0 : ℕ) < 0) :=
  ⟨rfl, by decide⟩

/-- Claim C9 (amended): for every heatmap batch of non-empty
rectangular channels and every POSITIVE target size, each coordinate
returned by `get_kpts` lies strictly inside the target image bounds
(the coordinates are naturals, so `0 ≤ x` and `0 ≤ y` hold by type). -/
theorem get_kpts_in_bounds (maps : Heatmaps) (img_h img_w : ℕ)
    (hmaps : ∀ hm ∈ maps, ∀ m ∈ hm,
      m ≠ [] ∧ 0 < ncols m ∧ ∀ row ∈ m, row.length = ncols m)
    (hh : 1 ≤ img_h) (hw : 1 ≤ img_w) :
    ∀ row ∈ get_kpts maps img_h img_w, ∀ p ∈ row,
      p.1 < img_w ∧ p.2 < img_h := by
  intro row hrow p hp
  unfold get_kpts at hrow
  rcases List.mem_map.mp hrow with ⟨hmch, hmm, rfl⟩
  rcases List.mem_map.mp hp with ⟨m, hmem, rfl⟩
  obtain ⟨h1, h2, h3⟩ := hmaps hmch hmm m hmem
  obtain ⟨h, w, hhlt, hwlt, _, _, heq⟩ := kptOfMap_spec m img_h img_w h1 h2 h3
  rw [heq]
  have hHpos : 0 < m.length := List.length_pos.mpr h1
  constructor
  · refine (Nat.div_lt_iff_lt_mul h2).mpr ?_
    calc w * img_w < ncols m * img_w :=
        mul_lt_mul_of_pos_right hwlt (by omega)
      _ = img_w * ncols m := by ring
  · refine (Nat.div_lt_iff_lt_mul hHpos).mpr ?_
    calc h * img_h < m.length * img_h :=
        mul_lt_mul_of_pos_right hhlt (by omega)
      _ = img_h * m.length := by ring

set_option maxRecDepth 10000 in
/-- Witness for the amended C9 at the 1×1×4×4 example heatmap with
target size 8×8, whose extracted keypoint is `(4, 2)`. -/
theorem get_kpts_in_bounds_witness : (4 : ℕ) < 8 ∧ (2 : ℕ) < 8 := by
  have hres : get_kpts
      [[[[0, 0, 0, 0], [0, 0, 9, 0], [0, 0, 0, 0], [0, 0, 0, 0]]]] 8 8 =
      [[(4, 2)]] := by decide
  have h := get_kpts_in_bounds
    [[[[0, 0, 0, 0], [0, 0, 9, 0], [0, 0, 0, 0], [0, 0, 0, 0]]]] 8 8
    (by decide) (by decide) (by decide)
  rw [hres] at h
  exact h [(4, 2)] (by simp) (4, 2) (by simp)

/-! ## Claim theorems: PCK monotonicity -/

/-- Claim C6: for every predicted and ground-truth coordinate set,
every side length, and every pair of tolerances `t1 ≤ t2` drawn from
the threshold sweep, the correct-keypoint count produced by `PCK` at
`t1` is at most the count at `t2`. -/
theorem PCK_count_mono (pred gt : KSet) (img_side_len t1 t2 : ℚ)
    (h1 : t1 ∈ thresholds) (h2 : t2 ∈ thresholds) (h12 : t1 ≤ t2) :
    (PCK pred gt img_side_len t1).2 ≤ (PCK pred gt img_side_len t2).2 := by
  have ht1 : 0 ≤ t1 := thresholds_nonneg t1 h1
  unfold PCK
  simp only
  rw [Nat.cast_le]
  refine List.sum_le_sum ?_
  intro row hrow
  refine List.countP_mono_left ?_
  intro d hd hsq
  refine sqrtLt_mono d (t1 * img_side_len) (t2 * img_side_len) ?_ hsq
  have hpos : 0 < t1 * img_side_len := by
    have h := hsq
    unfold sqrtLt at h
    rw [decide_eq_true_eq] at h
    exact h.1
  have ht1pos : 0 < t1 := by
    rcases lt_or_eq_of_le ht1 with h | h
    · exact h
    · exfalso
      rw [← h, zero_mul] at hpos
      exact lt_irrefl 0 hpos
  have hside : 0 < img_side_len := by
    rcases mul_pos_iff.mp hpos with ⟨_, hs⟩ | ⟨hneg, _⟩
    · exact hs
    · exact absurd ht1pos (not_lt.mpr (le_of_lt hneg))
  exact mul_le_mul_of_nonneg_right h12 (le_of_lt hside)

/-- Witness for C6 at `t1 = 0.05`, `t2 = 0.2` on a concrete batch. -/
theorem PCK_count_mono_witness :
    (PCK [[(0, 0)]] [[(1, 1)]] 10 (5 / 100)).2 ≤
      (PCK [[(0, 0)]] [[(1, 1)]] 10 (20 / 100)).2 :=
  PCK_count_mono [[(0, 0)]] [[(1, 1)]] 10 (5 / 100) (20 / 100)
    (by rw [thresholds_eq]; norm_num) (by rw [thresholds_eq]; norm_num)
    (by norm_num)

/-! ## Claim theorems: evaluate -/

/-- Claim C1 counterexample: the mode switch is NOT released on the
error path. A base network and head entering `evaluate` with
`training = true` are left with `training = false` when the first
loader element raises, instead of being restored to `true` — the source
has no `try`/`finally` around the batch loop, so `net.train(state)` is
skipped when an error propagates. -/
theorem evaluate_mode_counterexample :
    (evaluate (some (⟨true, fun _ : Unit => ()⟩ : MNet Unit Unit))
      ([.error ()] : List (Except Unit (Unit × KSet))) 8
      (some ⟨true, fun _ => [[[[1]]]]⟩) none).2 =
      (some false, some false, none) ∧
    ((some false, some false, (none : Option Bool)) ≠
      (some true, some true, (none : Option Bool))) :=
  ⟨rfl, by decide⟩

/-- Claim C1 (amended): when `evaluate` completes the batch loop
normally, every participating network's training-mode flag is restored
to its pre-call value; but when any step of the batch loop raises, the
flags of all participating networks are left at `false` (inference
mode) — the mode switch is released only on the normal exit path. -/
theorem evaluate_mode_flags {ι φ ε : Type} (bn : MNet ι φ)
    (p1 p2 : Option (MNet φ Heatmaps)) (img_size : ℕ)
    (hp : p1.isSome ∨ p2.isSome) :
    (∀ bs : List (ι × KSet),
      (evaluate (ε := ε) (some bn) (bs.map Except.ok) img_size p1 p2).2 =
        (some bn.training, p1.map (·.training), p2.map (·.training))) ∧
    (∀ (pre : List (ι × KSet)) (e : ε) (post : List (Except ε (ι × KSet))),
      (evaluate (some bn) (pre.map Except.ok ++ .error e :: post)
          img_size p1 p2).2 =
        (some false, p1.map (fun _ => false), p2.map (fun _ => false))) := by
  constructor
  · intro bs
    rcases p1 with _ | n1 <;> rcases p2 with _ | n2
    · simp at hp
    all_goals simp [evaluate, evalLoop_ok]
  · intro pre e post
    rcases p1 with _ | n1 <;> rcases p2 with _ | n2
    · simp at hp
    all_goals simp [evaluate, evalLoop_error]

/-- Witness for the amended C1: a normally-completing call restores the
pre-call flags. -/
theorem evaluate_mode_flags_witness :
    (evaluate (ε := Unit)
      (some (⟨true, fun _ : Unit => ()⟩ : MNet Unit Unit))
      ([((), [[(0, 0)]])].map Except.ok) 8
      (some ⟨true, fun _ => [[[[1]]]]⟩) none).2 =
      (some true, some true, none) :=
  (evaluate_mode_flags ⟨true, fun _ : Unit => ()⟩
    (some ⟨true, fun _ => [[[[1]]]]⟩) none 8 (Or.inl rfl)).1 [((), [[(0, 0)]])]

/-- Claim C7: `evaluate` fails at once with the corresponding assertion
error — leaving every training flag untouched and processing no batch
(the stated equalities hold for EVERY loader, including one whose first
element raises) — whenever the backbone is absent or both heads are
absent; and when the backbone and at least one head are supplied,
neither assertion error is ever the result. -/
theorem evaluate_asserts {ι φ ε : Type}
    (loader : List (Except ε (ι × KSet))) (img_size : ℕ) :
    (∀ p1 p2 : Option (MNet φ Heatmaps),
      evaluate (ι := ι) none loader img_size p1 p2 =
        (.error .assertBaseNetMissing,
          (none, p1.map (·.training), p2.map (·.training)))) ∧
    (∀ bn : MNet ι φ,
      evaluate (some bn) loader img_size none none =
        (.error .assertPredNetsMissing, (some bn.training, none, none))) ∧
    (∀ (bn : MNet ι φ) (p1 p2 : Option (MNet φ Heatmaps)),
      p1.isSome ∨ p2.isSome →
      (evaluate (some bn) loader img_size p1 p2).1 ≠
          .error .assertBaseNetMissing ∧
      (evaluate (some bn) loader img_size p1 p2).1 ≠
          .error .assertPredNetsMissing) := by
  refine ⟨fun p1 p2 => rfl, fun bn => rfl, ?_⟩
  intro bn p1 p2 hp
  rcases p1 with _ | n1 <;> rcases p2 with _ | n2
  · simp at hp
  · cases h : evalLoop (runHeats bn none (some n2)) img_size loader
        (List.replicate thresholds.length 0) 0 <;>
      simp [evaluate, h]
  · cases h : evalLoop (runHeats bn (some n1) none) img_size loader
        (List.replicate thresholds.length 0) 0 <;>
      simp [evaluate, h]
  · cases h : evalLoop (runHeats bn (some n1) (some n2)) img_size loader
        (List.replicate thresholds.length 0) 0 <;>
      simp [evaluate, h]

/-- Witness for C7: the missing-backbone assertion at a concrete call. -/
theorem evaluate_asserts_witness :
    evaluate (ι := Unit) (φ := Unit) (ε := Unit) none [] 8 none none =
      (.error .assertBaseNetMissing, (none, none, none)) :=
  (evaluate_asserts [] 8).1 none none

set_option maxHeartbeats 1000000 in
/-- Claim C2: `evaluate` builds a threshold sweep of exactly 21 equally
spaced values from 0 to 0.2 inclusive (index 5 holding 0.05),
accumulates one correct-keypoint count per threshold over all batches,
divides each accumulator by the total keypoint count after the loop,
and returns the normalized value at sweep index 5 and at the last index
as its two results. -/
theorem evaluate_spec {ι φ ε : Type} (bn : MNet ι φ)
    (p1 p2 : Option (MNet φ Heatmaps)) (bs : List (ι × KSet)) (img_size : ℕ)
    (hp : p1.isSome ∨ p2.isSome) :
    (thresholds.length = 21 ∧ thresholds.getD 0 0 = 0 ∧
      thresholds.getLastD 0 = 1 / 5 ∧ thresholds.getD 5 0 = 1 / 20 ∧
      ∀ i, i < 20 →
        thresholds.getD (i + 1) 0 - thresholds.getD i 0 = 1 / 100) ∧
    (evaluate (ε := ε) (some bn) (bs.map Except.ok) img_size p1 p2).1 =
      .ok ((bs.map (fun b =>
            (batchCounts (runHeats bn p1 p2) img_size b).getD 5 0)).sum /
          (bs.map (batchPnt (runHeats bn p1 p2) img_size)).sum,
        (bs.map (fun b =>
            (batchCounts (runHeats bn p1 p2) img_size b).getD 20 0)).sum /
          (bs.map (batchPnt (runHeats bn p1 p2) img_size)).sum) := by
  constructor
  · refine ⟨thresholds_length, ?_, ?_, ?_, ?_⟩
    · rw [thresholds_eq]
      rfl
    · rw [thresholds_eq]
      rfl
    · rw [thresholds_eq]
      rfl
    · intro i hi
      interval_cases i <;> (rw [thresholds_eq]; norm_num)
  rcases p1 with _ | n1
  rcases p2 with _ | n2
  · simp at hp
  · have hloop := evalLoop_ok (ε := ε) (runHeats bn none (some n2)) img_size
      bs (List.replicate thresholds.length 0) 0
    simp only [evaluate, hloop, zero_add]
    refine congrArg Except.ok (Prod.ext ?_ ?_)
    · exact evaluate_norm_getD _ _ _ 5 (by omega)
    · rw [getLastD_eq_getD, evaluate_map_len]
      exact evaluate_norm_getD _ _ _ 20 (by omega)
  · rcases p2 with _ | n2
    · have hloop := evalLoop_ok (ε := ε) (runHeats bn (some n1) none)
        img_size bs (List.replicate thresholds.length 0) 0
      simp only [evaluate, hloop, zero_add]
      refine congrArg Except.ok (Prod.ext ?_ ?_)
      · exact evaluate_norm_getD _ _ _ 5 (by omega)
      · rw [getLastD_eq_getD, evaluate_map_len]
        exact evaluate_norm_getD _ _ _ 20 (by omega)
    · have hloop := evalLoop_ok (ε := ε) (runHeats bn (some n1) (some n2))
        img_size bs (List.replicate thresholds.length 0) 0
      simp only [evaluate, hloop, zero_add]
      refine congrArg Except.ok (Prod.ext ?_ ?_)
      · exact evaluate_norm_getD _ _ _ 5 (by omega)
      · rw [getLastD_eq_getD, evaluate_map_len]
        exact evaluate_norm_getD _ _ _ 20 (by omega)

/-- Witness for C2 at a one-batch loader: a single 1×1 heatmap whose
keypoint lands exactly on the ground truth scores 1 at both headline
thresholds. -/
theorem evaluate_spec_witness :
    (evaluate (ε := Unit)
      (some (⟨true, fun _ : Unit => ()⟩ : MNet Unit Unit))
      ([((), [[(0, 0)]])].map Except.ok) 8
      (some ⟨true, fun _ => [[[[1]]]]⟩) none).1 = .ok (1, 1) := by
  have h := (evaluate_spec (ε := Unit) ⟨true, fun _ : Unit => ()⟩
    (some ⟨true, fun _ => [[[[1]]]]⟩) none [((), [[(0, 0)]])] 8
    (Or.inl rfl)).2
  rw [h]
  norm_num [batchCounts, batchPnt, PCK_curve_pnts, PCK, sqrtLt, runHeats,
    get_kpts, kptOfMap, kptsToQ, kptsNumel, argmaxIdx, ncols, thresholds_eq]

end HandKpt
